import Mathlib

/-!
Verification of `circular_buffer.h` (template class `circular_buffer<T, N>`).

The C++ class stores `T buffer_[N ? N : 1]` together with three `std::size_t`
members `size_`, `tail_` and `_head` (initialised to 0, 0 and 1).  We embed a
buffer state shallowly: the physical storage is modelled as a total function
`Nat → T` (the C++ array is default-initialised, i.e. its initial contents are
indeterminate, so constructions are parameterised by an arbitrary initial
contents function; indices outside the array bounds model out-of-bounds slots).
Counters are modelled as `Nat`; the only place `std::size_t` wrap-around could
differ is `--size_` in `_increment_head` when `size_ = 0` (a caller contract
violation: `pop_front` on an empty buffer), which no claim exercises — every
claim applies `_increment_head` only when `size_ ≥ 1`, where `Nat` subtraction
agrees with `std::size_t` subtraction.
-/

namespace CircularBuffer

/-- State of `circular_buffer<T, N>`: fields mirror the data members
`buffer_`, `size_`, `tail_` and `_head` (with their in-class initialisers
`= 0`, `= 0`, `= 1`). -/
structure CB (T : Type) (N : Nat) where
  buffer_ : Nat → T
  size_ : Nat := 0
  tail_ : Nat := 0
  _head : Nat := 1

variable {T : Type} {N : Nat}

/-- A freshly constructed buffer: members take their initialisers, the array
contents are indeterminate (parameter `b`). -/
def mkCB (b : Nat → T) : CB T N := { buffer_ := b }

/-- `buffer_[j] = x`: pointwise array store. -/
def writeSlot (b : Nat → T) (j : Nat) (x : T) : Nat → T :=
  fun k => if k = j then x else b k

/-- `_incrementtail_()`: `++tail_; ++size_; if (tail_ == N) tail_ = 0;`. -/
def _incrementtail_ (s : CB T N) : CB T N :=
  { s with tail_ := if s.tail_ + 1 = N then 0 else s.tail_ + 1,
           size_ := s.size_ + 1 }

/-- `_increment_head()`: `++_head; --size_; if (_head == N) _head = 0;`
(`--size_` on `size_ = 0` would wrap in C++; see the module comment). -/
def _increment_head (s : CB T N) : CB T N :=
  { s with _head := if s._head + 1 = N then 0 else s._head + 1,
           size_ := s.size_ - 1 }

/-- `_position_inbuffer_(i) = (_head + i) % N` (for `N = 0` the C++ `%` is
undefined behaviour; the public interface only reaches it when `N ≥ 1`). -/
def _position_inbuffer_ (s : CB T N) (i : Nat) : Nat :=
  (s._head + i) % N

/-- `size()`. -/
def size (s : CB T N) : Nat := s.size_

/-- `empty()`: `size() == 0`. -/
def empty (s : CB T N) : Bool := size s == 0

/-- `full()`: `size() == N`. -/
def full (s : CB T N) : Bool := size s == N

/-- `operator[](i)`: `buffer_[_position_inbuffer_(i)]`, no bounds check. -/
def opIndex (s : CB T N) (i : Nat) : T :=
  s.buffer_ (_position_inbuffer_ s i)

/-- `at(i)`: `if (i >= N) throw std::out_of_range("circular_buffer::at");
return buffer_[_position_inbuffer_(i)];`. -/
def at' (s : CB T N) (i : Nat) : Except String T :=
  if N ≤ i then Except.error "circular_buffer::at"
  else Except.ok (s.buffer_ (_position_inbuffer_ s i))

/-- Dereference of an iterator holding logical position `pos`:
`*it = (*_circular_buffer)[_pos]`. -/
def derefIter (s : CB T N) (pos : Nat) : T := opIndex s pos

/-- `front()`: `*begin()`, i.e. dereference of the iterator at logical
position 0. -/
def front (s : CB T N) : T := derefIter s 0

/-- `back()` (mutable overload): `N ? *(end()-1) : *end()`; `end()` is the
iterator at logical position `size()`, and iterator `operator-` subtracts on
the position (a `std::size_t`, which only differs from `Nat` subtraction on an
empty buffer, a caller contract violation). -/
def back (s : CB T N) : T :=
  if N = 0 then derefIter s (size s) else derefIter s (size s - 1)

/-- `back() const`: `N ? *end()-1 : *end()`, which parses as
`(*end()) - 1`: it dereferences the one-past-last iterator and subtracts `1`
from the element value. -/
def back_const [Sub T] [One T] (s : CB T N) : T :=
  if N = 0 then derefIter s (size s) else derefIter s (size s) - 1

/-- `push_back(item)`: `_incrementtail_(); if (size_ == N) _increment_head();
buffer_[tail_] = item;`. -/
def push_back (x : T) (s : CB T N) : CB T N :=
  let s1 := _incrementtail_ s
  let s2 := if s1.size_ = N then _increment_head s1 else s1
  { s2 with buffer_ := writeSlot s2.buffer_ s2.tail_ x }

/-- `pop_front()`: `_increment_head();`. -/
def pop_front (s : CB T N) : CB T N := _increment_head s

/-- `clear()`: `size_ = 0; tail_ = 0; _head = 1;`. -/
def clear (s : CB T N) : CB T N :=
  { s with size_ := 0, tail_ := 0, _head := 1 }

/-- `fill(u)`: `std::fill_n(begin(), size(), u)` — assigns `u` through the
iterator at logical positions `0 .. size()-1`, each write landing at
`_position_inbuffer_(pos)`. -/
def fill (u : T) (s : CB T N) : CB T N :=
  { s with buffer_ := ((List.range (size s)).foldl
      (fun b i => writeSlot b (_position_inbuffer_ s i) u) s.buffer_) }

/-- Pushing a whole list of items in order (left to right). -/
def pushList (s : CB T N) (l : List T) : CB T N :=
  l.foldl (fun t x => push_back x t) s

/-- The logical contents of the buffer, front to back: element `i` read
through `operator[]` for `0 ≤ i < size_`. -/
def logicalView (s : CB T N) : List T :=
  (List.range s.size_).map (opIndex s)

/-- Invariant of the circular bookkeeping: the stored count stays strictly
below `N`, the tail index is in range, and the tail sits `size_` slots
(minus one, cyclically) after `_head`. It holds for the freshly constructed
state `(size_, tail_, _head) = (0, 0, 1)` and is preserved by `push_back`
and by `pop_front` on non-empty buffers. -/
def Inv (s : CB T N) : Prop :=
  s.size_ + 1 ≤ N ∧ s.tail_ < N ∧ s.tail_ = (s._head + s.size_ + (N - 1)) % N

/-- States reachable from a freshly constructed buffer by the public mutating
interface, with `pop_front` applied only to non-empty buffers. -/
inductive Reachable : CB T N → Prop where
  | init (b : Nat → T) : Reachable (mkCB b)
  | push (s : CB T N) (x : T) : Reachable s → Reachable (push_back x s)
  | pop (s : CB T N) : Reachable s → 0 < s.size_ → Reachable (pop_front s)
  | fillOp (s : CB T N) (u : T) : Reachable s → Reachable (fill u s)
  | clearOp (s : CB T N) : Reachable s → Reachable (clear s)

/-- A single mutating call in a `push_back`/`pop_front` trace. -/
inductive Op (T : Type) where
  | push (x : T)
  | pop

/-- Run one operation. -/
def applyOp (s : CB T N) : Op T → CB T N
  | Op.push x => push_back x s
  | Op.pop => pop_front s

/-- Run a trace of operations, left to right. -/
def applyOps (s : CB T N) : List (Op T) → CB T N
  | [] => s
  | o :: rest => applyOps (applyOp s o) rest

/-- Caller contract of the trace: every `pop_front` happens on a non-empty
buffer. -/
def popsOk (s : CB T N) : List (Op T) → Bool
  | [] => true
  | Op.push x :: rest => popsOk (push_back x s) rest
  | Op.pop :: rest => decide (0 < s.size_) && popsOk (pop_front s) rest

/-- All items pushed by a trace, in push order. -/
def pushedVals : List (Op T) → List T
  | [] => []
  | Op.push x :: rest => x :: pushedVals rest
  | Op.pop :: rest => pushedVals rest

/-! ### Basic component lemmas -/

lemma writeSlot_same (b : Nat → T) (j : Nat) (x : T) : writeSlot b j x j = x := by
  simp [writeSlot]

lemma writeSlot_ne (b : Nat → T) {j k : Nat} (x : T) (h : k ≠ j) :
    writeSlot b j x k = b k := by
  simp [writeSlot, h]

lemma push_size (x : T) (s : CB T N) :
    (push_back x s).size_ = if s.size_ + 1 = N then s.size_ else s.size_ + 1 := by
  by_cases h : s.size_ + 1 = N
  · simp [push_back, _incrementtail_, _increment_head, h]
    omega
  · simp [push_back, _incrementtail_, _increment_head, h]

lemma push_head (x : T) (s : CB T N) :
    (push_back x s)._head =
      if s.size_ + 1 = N then (if s._head + 1 = N then 0 else s._head + 1)
      else s._head := by
  by_cases h : s.size_ + 1 = N <;>
    simp [push_back, _incrementtail_, _increment_head, h]

lemma push_tail (x : T) (s : CB T N) :
    (push_back x s).tail_ = if s.tail_ + 1 = N then 0 else s.tail_ + 1 := by
  by_cases h : s.size_ + 1 = N <;>
    simp [push_back, _incrementtail_, _increment_head, h]

lemma push_buffer (x : T) (s : CB T N) :
    (push_back x s).buffer_ =
      writeSlot s.buffer_ (if s.tail_ + 1 = N then 0 else s.tail_ + 1) x := by
  by_cases h : s.size_ + 1 = N <;>
    simp [push_back, _incrementtail_, _increment_head, h]

lemma pop_size (s : CB T N) : (pop_front s).size_ = s.size_ - 1 := rfl

lemma pop_head (s : CB T N) :
    (pop_front s)._head = if s._head + 1 = N then 0 else s._head + 1 := rfl

lemma pop_tail (s : CB T N) : (pop_front s).tail_ = s.tail_ := rfl

lemma pop_buffer (s : CB T N) : (pop_front s).buffer_ = s.buffer_ := rfl

lemma logicalView_length (s : CB T N) : (logicalView s).length = s.size_ := by
  simp [logicalView]

lemma logicalView_getElem (s : CB T N) (i : Nat) (h : i < (logicalView s).length) :
    (logicalView s)[i] = s.buffer_ ((s._head + i) % N) := by
  simp [logicalView, opIndex, _position_inbuffer_]

/-! ### Wrap-around arithmetic -/

lemma wrap_mod (a n : Nat) :
    (if a + 1 = n then 0 else a + 1) % n = (a + 1) % n := by
  split
  · next h => rw [← h]; simp
  · rfl

lemma wrap_lt {a : Nat} (n : Nat) (h : a < n) :
    (if a + 1 = n then 0 else a + 1) < n := by
  split
  · omega
  · next h2 => omega

lemma wrap_add_mod (a n i : Nat) :
    ((if a + 1 = n then 0 else a + 1) + i) % n = (a + 1 + i) % n := by
  conv_lhs => rw [← Nat.mod_add_mod]
  rw [wrap_mod, Nat.mod_add_mod]

lemma mod_add_inj {n a i j : Nat} (hi : i < n) (hj : j < n)
    (h : (a + i) % n = (a + j) % n) : i = j := by
  have h2 : i ≡ j [MOD n] := Nat.ModEq.add_left_cancel' a h
  rwa [Nat.ModEq, Nat.mod_eq_of_lt hi, Nat.mod_eq_of_lt hj] at h2

/-! ### The structural invariant of reachable states (for `N ≥ 1`) -/

lemma inv_mkCB (h : 1 ≤ N) (b : Nat → T) : Inv (mkCB b : CB T N) := by
  refine ⟨by simpa [mkCB] using h, by simpa [mkCB] using h, ?_⟩
  show (0 : Nat) = (1 + 0 + (N - 1)) % N
  have e : 1 + 0 + (N - 1) = N := by omega
  rw [e, Nat.mod_self]

lemma push_tail_eq (x : T) (s : CB T N) (h : Inv s) :
    (push_back x s).tail_ = (s._head + s.size_) % N := by
  obtain ⟨h1, h2, h3⟩ := h
  rw [push_tail]
  have hlt : (if s.tail_ + 1 = N then 0 else s.tail_ + 1) < N := wrap_lt N h2
  rw [← Nat.mod_eq_of_lt hlt, wrap_mod, h3, Nat.mod_add_mod]
  have e : s._head + s.size_ + (N - 1) + 1 = s._head + s.size_ + N := by omega
  rw [e, Nat.add_mod_right]

lemma push_buffer_eq (x : T) (s : CB T N) (h : Inv s) :
    (push_back x s).buffer_ =
      writeSlot s.buffer_ ((s._head + s.size_) % N) x := by
  rw [push_buffer, ← push_tail, push_tail_eq x s h]

lemma push_inv (x : T) (s : CB T N) (h : Inv s) : Inv (push_back x s) := by
  have htl := push_tail_eq x s h
  obtain ⟨h1, h2, h3⟩ := h
  refine ⟨?_, ?_, ?_⟩
  · rw [push_size]; split <;> omega
  · rw [push_tail]; exact wrap_lt N h2
  · rw [htl, push_size, push_head]
    by_cases hc : s.size_ + 1 = N
    · rw [if_pos hc, if_pos hc, Nat.add_assoc, wrap_add_mod]
      have e : s._head + 1 + (s.size_ + (N - 1)) = s._head + s.size_ + N := by
        omega
      rw [e, Nat.add_mod_right]
    · rw [if_neg hc, if_neg hc]
      have e : s._head + (s.size_ + 1) + (N - 1) = s._head + s.size_ + N := by
        omega
      rw [e, Nat.add_mod_right]

/-! ### How `push_back` and `pop_front` transform the logical contents -/

/-- A non-saturating push appends the item to the logical contents. -/
lemma push_view_of_ne (x : T) (s : CB T N) (h : Inv s) (hc : s.size_ + 1 ≠ N) :
    logicalView (push_back x s) = logicalView s ++ [x] := by
  have hbuf := push_buffer_eq x s h
  obtain ⟨h1, h2, h3⟩ := h
  have hsz : (push_back x s).size_ = s.size_ + 1 := by rw [push_size, if_neg hc]
  have hhd : (push_back x s)._head = s._head := by rw [push_head, if_neg hc]
  have hszN : s.size_ < N := by omega
  apply List.ext_getElem
  · simp [logicalView_length, hsz]
  · intro i hi1 hi2
    rw [logicalView_getElem, hhd, hbuf]
    rw [logicalView_length, hsz] at hi1
    rcases Nat.lt_or_ge i s.size_ with hlt | hge
    · have hne : (s._head + i) % N ≠ (s._head + s.size_) % N := by
        intro he
        exact absurd (mod_add_inj (lt_trans hlt hszN) hszN he) (Nat.ne_of_lt hlt)
      rw [writeSlot_ne _ _ hne,
        List.getElem_append_left (by simpa [logicalView_length] using hlt),
        logicalView_getElem]
    · have hie : i = s.size_ := by omega
      subst hie
      rw [writeSlot_same,
        List.getElem_append_right (by simp [logicalView_length])]
      simp [logicalView_length]

/-- A saturating push (`size_ + 1 = N`, with `size_ ≥ 1`) drops the oldest
element and appends the item. -/
lemma push_view_of_eq (x : T) (s : CB T N) (h : Inv s) (hc : s.size_ + 1 = N)
    (h1 : 1 ≤ s.size_) :
    logicalView (push_back x s) = (logicalView s).drop 1 ++ [x] := by
  have hbuf := push_buffer_eq x s h
  obtain ⟨ha, hb, h3⟩ := h
  have hsz : (push_back x s).size_ = s.size_ := by rw [push_size, if_pos hc]
  have hhd : (push_back x s)._head =
      if s._head + 1 = N then 0 else s._head + 1 := by rw [push_head, if_pos hc]
  have hszN : s.size_ < N := by omega
  apply List.ext_getElem
  · simp [logicalView_length, hsz]; omega
  · intro i hi1 hi2
    rw [logicalView_getElem, hhd, hbuf, wrap_add_mod]
    rw [logicalView_length, hsz] at hi1
    rcases Nat.lt_or_ge i (s.size_ - 1) with hlt | hge
    · have hne : (s._head + (1 + i)) % N ≠ (s._head + s.size_) % N := by
        intro he
        have := mod_add_inj (by omega) hszN he
        omega
      rw [← Nat.add_assoc] at hne
      rw [writeSlot_ne _ _ hne,
        List.getElem_append_left (by simp [logicalView_length]; omega),
        List.getElem_drop, logicalView_getElem]
      rw [Nat.add_assoc]
    · have hie : i = s.size_ - 1 := by omega
      subst hie
      have e : s._head + 1 + (s.size_ - 1) = s._head + s.size_ := by omega
      rw [e, writeSlot_same,
        List.getElem_append_right (by simp [logicalView_length])]
      simp [logicalView_length]

/-- `pop_front` drops the logically first element (whatever the state). -/
lemma pop_view (s : CB T N) :
    logicalView (pop_front s) = (logicalView s).drop 1 := by
  apply List.ext_getElem
  · simp [logicalView_length, pop_size]
  · intro i hi1 hi2
    rw [logicalView_getElem, pop_head, pop_buffer, wrap_add_mod,
      List.getElem_drop, logicalView_getElem, Nat.add_assoc]

lemma pop_inv (s : CB T N) (h : Inv s) (h1 : 1 ≤ s.size_) :
    Inv (pop_front s) := by
  obtain ⟨ha, hb, h3⟩ := h
  refine ⟨by rw [pop_size]; omega, by rw [pop_tail]; exact hb, ?_⟩
  rw [pop_tail, pop_size, pop_head, Nat.add_assoc, wrap_add_mod]
  have e : s._head + 1 + (s.size_ - 1 + (N - 1)) = s._head + s.size_ + (N - 1) := by
    omega
  rw [e, ← h3]

lemma clear_size (s : CB T N) : (clear s).size_ = 0 := rfl

lemma fill_size (u : T) (s : CB T N) : (fill u s).size_ = s.size_ := rfl

lemma logicalView_mkCB (b : Nat → T) : logicalView (mkCB b : CB T N) = [] := by
  simp [logicalView, mkCB]

/-- One saturating or non-saturating push keeps the logical contents a
sublist of the old contents with the new item appended. -/
lemma push_view_sublist (x : T) (s : CB T N) (h : Inv s) :
    (logicalView (push_back x s)).Sublist (logicalView s ++ [x]) := by
  by_cases hc : s.size_ + 1 = N
  · rcases Nat.eq_zero_or_pos s.size_ with hz | hpos
    · have hv : logicalView (push_back x s) = [] := by
        have hs0 : (push_back x s).size_ = 0 := by rw [push_size, if_pos hc, hz]
        simp [logicalView, hs0]
      rw [hv]
      exact List.nil_sublist _
    · rw [push_view_of_eq x s h hc hpos]
      exact List.Sublist.append (List.drop_sublist 1 _) (List.Sublist.refl _)
  · rw [push_view_of_ne x s h hc]

/-- Main induction for C8: along any trace whose pops respect the caller
contract, the logical contents stay a sublist of (accumulated prefix ++
items pushed by the trace). -/
lemma fifo_aux (l : List (Op T)) :
    ∀ (s : CB T N) (P : List T), Inv s → (logicalView s).Sublist P →
      popsOk s l = true →
      (logicalView (applyOps s l)).Sublist (P ++ pushedVals l) := by
  induction l with
  | nil =>
    intro s P _ hsub _
    simpa [applyOps, pushedVals] using hsub
  | cons o rest ih =>
    intro s P hInv hsub hok
    cases o with
    | push x =>
      have hok2 : popsOk (push_back x s) rest = true := by
        simpa [popsOk] using hok
      have hstep : (logicalView (push_back x s)).Sublist (P ++ [x]) :=
        (push_view_sublist x s hInv).trans
          (List.Sublist.append hsub (List.Sublist.refl _))
      have hrec := ih (push_back x s) (P ++ [x]) (push_inv x s hInv) hstep hok2
      simpa [applyOps, applyOp, pushedVals, List.append_assoc] using hrec
    | pop =>
      have hok' : 0 < s.size_ ∧ popsOk (pop_front s) rest = true := by
        simpa [popsOk, Bool.and_eq_true] using hok
      have hstep : (logicalView (pop_front s)).Sublist P := by
        rw [pop_view]
        exact (List.drop_sublist 1 _).trans hsub
      have hrec := ih (pop_front s) P (pop_inv s hInv hok'.1) hstep hok'.2
      simpa [applyOps, applyOp, pushedVals] using hrec

/-! ### Claims -/

/-- C1: the spec's two-branch `push_back` postcondition fails on the code.
Concrete refutation at `N = 2` over `Int`: take the buffer after one
`push_back(5)` — its count is `1 < N` and `_head = 1`, so by the claim the
next push should raise the count to `2` and leave the head alone.  The code
instead keeps the count at `1` and advances `_head` from `1` to (wrapped)
`0`, because its eviction test `size_ == N` runs after `size_` was already
incremented. -/
theorem c1_push_back_branches_refuted :
    size (push_back 5 (mkCB (fun _ => (0:Int)) : CB Int 2)) = 1 ∧
    (1:Nat) < 2 ∧
    size (push_back 7 (push_back 5 (mkCB (fun _ => (0:Int)) : CB Int 2))) = 1 ∧
    (push_back 7 (push_back 5 (mkCB (fun _ => (0:Int)) : CB Int 2)))._head = 0 ∧
    (push_back 5 (mkCB (fun _ => (0:Int)) : CB Int 2))._head = 1 := by
  decide

/-- C2: refuted on the code at `k = N`.  For `N = 3` over `Int`, pushing
`[1, 2, 3]` (three pushes, `k ≤ N`) leaves `size() = 2`, not `3`, and the
logical contents are `[2, 3]`, not `[1, 2, 3]`: the third push evicted the
first element although the buffer was not yet at capacity. -/
theorem c2_pushes_within_capacity_refuted :
    ([1, 2, 3] : List Int).length ≤ 3 ∧
    size (pushList (mkCB (fun _ => (0:Int)) : CB Int 3) [1, 2, 3]) = 2 ∧
    logicalView (pushList (mkCB (fun _ => (0:Int)) : CB Int 3) [1, 2, 3]) =
      [2, 3] := by
  decide

/-- C3: refuted on the code.  For `N = 3` over `Int`, pushing
`[1, 2, 3, 4, 5]` leaves `size() = 2` (not `3`) with logical contents
`[4, 5]` (not `[3, 4, 5]`), and one subsequent `pop_front` leaves `[5]`
with size `1` (not `[4, 5]` with size `2`). -/
theorem c3_overflow_round_trip_refuted :
    size (pushList (mkCB (fun _ => (0:Int)) : CB Int 3) [1, 2, 3, 4, 5]) = 2 ∧
    logicalView (pushList (mkCB (fun _ => (0:Int)) : CB Int 3) [1, 2, 3, 4, 5]) =
      [4, 5] ∧
    size (pop_front (pushList (mkCB (fun _ => (0:Int)) : CB Int 3)
      [1, 2, 3, 4, 5])) = 1 ∧
    logicalView (pop_front (pushList (mkCB (fun _ => (0:Int)) : CB Int 3)
      [1, 2, 3, 4, 5])) = [5] := by
  decide

/-- C4: for `N ≥ 1`, every state reachable by the public interface (pops
only on non-empty buffers) has `size() ≤ N - 1`, hence `full()` is never
true; and `push_back` from a state with `size_ = N - 1` leaves
`size_ = N - 1`. -/
theorem c4_size_never_reaches_capacity {T : Type} {N : Nat} (h : 1 ≤ N) :
    (∀ s : CB T N, Reachable s → size s ≤ N - 1 ∧ full s = false) ∧
    (∀ (s : CB T N) (x : T), s.size_ = N - 1 →
      (push_back x s).size_ = N - 1) := by
  constructor
  · intro s hs
    have hb : s.size_ ≤ N - 1 := by
      induction hs with
      | init b => show (0:Nat) ≤ N - 1; omega
      | push s x _ ih => rw [push_size]; split <;> omega
      | pop s _ _ ih => rw [pop_size]; omega
      | fillOp s u _ ih => rw [fill_size]; exact ih
      | clearOp s _ => rw [clear_size]; omega
    refine ⟨hb, ?_⟩
    have hne : size s ≠ N := by simp only [size]; omega
    simp [full, hne]
  · intro s x hsz
    rw [push_size, if_pos (by omega)]
    exact hsz

/-- Witness for C4 at `N = 3`, `T = Int`: the freshly constructed buffer. -/
theorem c4_size_never_reaches_capacity_witness :
    size (mkCB (fun _ => (0:Int)) : CB Int 3) ≤ 2 ∧
      full (mkCB (fun _ => (0:Int)) : CB Int 3) = false :=
  (c4_size_never_reaches_capacity (by decide)).1 _ (Reachable.init _)

/-- C5: refuted on the code.  At `N = 0` the fresh buffer indeed reports
`empty() = full() = true` and `size() = 0`, but `push_back` increases
`size()` to `1` (so `empty()` and `full()` turn false), and the write goes
to `buffer_[1]` — outside the single placeholder slot, which is index
`0`. -/
theorem c5_zero_capacity_refuted :
    size (mkCB (fun _ => (0:Int)) : CB Int 0) = 0 ∧
    empty (mkCB (fun _ => (0:Int)) : CB Int 0) = true ∧
    full (mkCB (fun _ => (0:Int)) : CB Int 0) = true ∧
    size (push_back 1 (mkCB (fun _ => (0:Int)) : CB Int 0)) = 1 ∧
    empty (push_back 1 (mkCB (fun _ => (0:Int)) : CB Int 0)) = false ∧
    full (push_back 1 (mkCB (fun _ => (0:Int)) : CB Int 0)) = false ∧
    (push_back 1 (mkCB (fun _ => (0:Int)) : CB Int 0)).tail_ = 1 ∧
    (push_back 1 (mkCB (fun _ => (0:Int)) : CB Int 0)).buffer_ 1 = 1 := by
  decide

/-- C6: `at(i)` throws `OutOfRange` exactly when `i ≥ N`, and for every
`i < N` — whatever the current `size()` — returns the storage slot at
physical index `(_head + i) % N`. -/
theorem c6_at_checked_by_capacity (s : CB T N) (i : Nat) :
    (N ≤ i → at' s i = Except.error "circular_buffer::at") ∧
    (i < N → at' s i = Except.ok (s.buffer_ ((s._head + i) % N))) := by
  constructor
  · intro h
    unfold at'
    rw [if_pos h]
  · intro h
    unfold at'
    rw [if_neg (by omega)]
    rfl

/-- Witness for C6 at `N = 2`, `i = 1`, on a fresh (size-0) buffer. -/
theorem c6_at_checked_by_capacity_witness :
    at' (mkCB (fun _ => (0:Int)) : CB Int 2) 1 =
      Except.ok ((mkCB (fun _ => (0:Int)) : CB Int 2).buffer_
        (((mkCB (fun _ => (0:Int)) : CB Int 2)._head + 1) % 2)) :=
  (c6_at_checked_by_capacity _ 1).2 (by decide)

/-- C7: the mutable overloads behave as claimed, but the `const` overload of
`back()` does not.  For `N = 3` over `Int` after pushing `[10, 20, 30, 40]`
the logical contents are `[30, 40]`: `front()` gives `30` and the mutable
`back()` gives `40` (`*(end()-1)`), but the `const` overload computes
`*end()-1 = (*end()) - 1`, i.e. it reads the stale slot one past the last
element (value `20`) and subtracts one, returning `19`. -/
theorem c7_const_back_wrong :
    front (pushList (mkCB (fun _ => (0:Int)) : CB Int 3) [10, 20, 30, 40]) = 30 ∧
    back (pushList (mkCB (fun _ => (0:Int)) : CB Int 3) [10, 20, 30, 40]) = 40 ∧
    logicalView (pushList (mkCB (fun _ => (0:Int)) : CB Int 3) [10, 20, 30, 40]) =
      [30, 40] ∧
    back_const (pushList (mkCB (fun _ => (0:Int)) : CB Int 3) [10, 20, 30, 40]) =
      19 := by
  decide

/-- C8: along any trace of `push_back`/`pop_front` calls from a fresh buffer
in which every pop hits a non-empty buffer, the surviving logical contents
always form a sublist (front-to-back, in push order) of the items pushed so
far: FIFO order of survivors is never lost. -/
theorem c8_fifo_order_of_survivors {T : Type} {N : Nat} (h : 1 ≤ N)
    (b : Nat → T) (l : List (Op T))
    (hp : popsOk (mkCB b : CB T N) l = true) :
    (logicalView (applyOps (mkCB b : CB T N) l)).Sublist (pushedVals l) := by
  have h0 := fifo_aux l (mkCB b : CB T N) [] (inv_mkCB h b)
    (by rw [logicalView_mkCB]) hp
  simpa using h0

/-- Witness for C8 at `N = 2`, trace `push 1; pop; push 2`. -/
theorem c8_fifo_order_of_survivors_witness :
    (logicalView (applyOps (mkCB (fun _ => (0:Int)) : CB Int 2)
        [Op.push 1, Op.pop, Op.push 2])).Sublist
      (pushedVals [Op.push (1:Int), Op.pop, Op.push 2]) :=
  c8_fifo_order_of_survivors (by decide) _ _ (by decide)

/-- C9: after `clear()`, the reads report `size() = 0`, `empty() = true` and
`full() = (N == 0)`, for every prior state. -/
theorem c9_clear_resets (s : CB T N) :
    size (clear s) = 0 ∧ empty (clear s) = true ∧
      full (clear s) = decide (N = 0) := by
  cases N <;> exact ⟨rfl, rfl, rfl⟩

/-- C10: `operator[](i)` returns the storage slot at physical index
`(_head + i) % N` with no bounds check, for every state and every `i`; in
particular the logical element at position `i < size()` is the one stored at
that physical slot. -/
theorem c10_operator_index (s : CB T N) (i : Nat) :
    opIndex s i = s.buffer_ ((s._head + i) % N) ∧
    (i < s.size_ →
      (logicalView s)[i]? = some (s.buffer_ ((s._head + i) % N))) := by
  refine ⟨rfl, fun h => ?_⟩
  simp [logicalView, opIndex, _position_inbuffer_, h]

/-- Witness for C10 at `N = 2`, position `0` of a one-element buffer. -/
theorem c10_operator_index_witness :
    (logicalView (push_back 5 (mkCB (fun _ => (0:Int)) : CB Int 2)))[0]? =
      some ((push_back 5 (mkCB (fun _ => (0:Int)) : CB Int 2)).buffer_
        (((push_back 5 (mkCB (fun _ => (0:Int)) : CB Int 2))._head + 0) % 2)) :=
  (c10_operator_index _ 0).2 (by decide)

end CircularBuffer
